import Mathlib

/-!
Verification development for the ccc repository: a bridge between a chat
platform and terminal-multiplexed coding-agent sessions.  The definitions
below are shallow embeddings of the Go source (monitor.go, telegram.go,
relay.go, session.go, commands.go, tmux.go and the config loader).  Go
strings are modelled as Lean `String` where the code works rune-wise and as
`List Nat` (UTF-8 bytes) where the code indexes or slices by byte.
-/

namespace Ccc

/-! ## String helpers mirroring the Go standard library -/

/-- Rune predicate of `unicode.IsSpace`: ASCII whitespace, NEL, NBSP and the
Unicode White_Space code points. -/
def goIsSpace (c : Char) : Bool :=
  let n := c.toNat
  (9 ≤ n && n ≤ 13) || n == 32 || n == 0x85 || n == 0xA0 || n == 0x1680 ||
    (0x2000 ≤ n && n ≤ 0x200A) || n == 0x2028 || n == 0x2029 ||
    n == 0x202F || n == 0x205F || n == 0x3000

/-- Model of `strings.TrimSpace`: drop leading and trailing whitespace runes. -/
def goTrim (s : String) : String :=
  ⟨((s.data.dropWhile goIsSpace).reverse.dropWhile goIsSpace).reverse⟩

/-- List-level starts-with test (byte-for-byte equality of an initial
segment, which for valid UTF-8 agrees with `strings.HasPrefix`). -/
def listStarts : List Char → List Char → Bool
  | [], _ => true
  | _ :: _, [] => false
  | a :: p, b :: l => a == b && listStarts p l

/-- Model of `strings.HasPrefix s p`. -/
def strStarts (s p : String) : Bool :=
  listStarts p.data s.data

/-- List-level substring test. -/
def containsCL (p : List Char) : List Char → Bool
  | [] => listStarts p []
  | l@(_ :: t) => listStarts p l || containsCL p t

/-- Model of `strings.Contains s sub`. -/
def strContains (s sub : String) : Bool :=
  containsCL sub.data s.data

/-- Model of `strings.TrimPrefix s p`. -/
def strTrimPre (s p : String) : String :=
  if strStarts s p then ⟨s.data.drop p.data.length⟩ else s

/-- Lowercasing of one rune, covering the ASCII and Latin-1 ranges that the
status words of the mirror can meet (model of `unicode.ToLower` on them). -/
def goLowerChar (c : Char) : Char :=
  let n := c.toNat
  if 65 ≤ n && n ≤ 90 then Char.ofNat (n + 32)
  else if 0xC0 ≤ n && n ≤ 0xDE && n ≠ 0xD7 then Char.ofNat (n + 32)
  else c

/-- Model of `strings.ToLower`. -/
def goToLower (s : String) : String :=
  ⟨s.data.map goLowerChar⟩

/-- UTF-8 encoding of one rune as a list of byte values. -/
def charUtf8 (c : Char) : List Nat :=
  let n := c.toNat
  if n < 0x80 then [n]
  else if n < 0x800 then [0xC0 + n / 0x40, 0x80 + n % 0x40]
  else if n < 0x10000 then
    [0xE0 + n / 0x1000, 0x80 + (n / 0x40) % 0x40, 0x80 + n % 0x40]
  else
    [0xF0 + n / 0x40000, 0x80 + (n / 0x1000) % 0x40,
      0x80 + (n / 0x40) % 0x40, 0x80 + n % 0x40]

/-- UTF-8 bytes of a string: the representation on which Go `len` and byte
slicing act. -/
def strBytes (s : String) : List Nat :=
  (s.data.map charUtf8).flatten

/-! ## Pane parsing (monitor.go) -/

/-- Model of `isBulletLine` (monitor.go): a trimmed line opening a block. -/
def isBulletLine (trimmed : String) : Bool :=
  strStarts trimmed "⏺" || strStarts trimmed "● " || strStarts trimmed "✻ "

/-- Model of `isStatusLine` (monitor.go): transient spinner glyphs. -/
def isStatusLine (trimmed : String) : Bool :=
  strStarts trimmed "✱" || strStarts trimmed "✢" || strStarts trimmed "✽" ||
    strStarts trimmed "✻" || strStarts trimmed "+" || strStarts trimmed "*"

/-- Model of `removeBulletPrefix` (monitor.go): longer bullets are tried
first, exactly as in the source. -/
def removeBullet (s : String) : String :=
  if strStarts s "⏺  " then strTrimPre s "⏺  "
  else if strStarts s "⏺ " then strTrimPre s "⏺ "
  else if strStarts s "● " then strTrimPre s "● "
  else if strStarts s "✻ " then strTrimPre s "✻ "
  else s

/-- Lookahead of `extractBlocks` at a `───` separator: the first nonempty
line among the next three (staying below `endIdx`) decides whether this is
the final input box (it starts with the prompt glyph). -/
def checkFinalBox (lines : List String) (i endIdx : Nat) : Bool :=
  let probe := fun (j : Nat) =>
    if j < endIdx then
      let t := goTrim (lines.getD j "")
      if t = "" then none else some (strStarts t "❯")
    else none
  match probe (i + 1) with
  | some b => b
  | none =>
    match probe (i + 2) with
    | some b => b
    | none =>
      match probe (i + 3) with
      | some b => b
      | none => false

/-- Loop body of `extractBlocks` (monitor.go, first listing, lines 145-215),
written with explicit fuel; one unit of fuel is spent per line index, so
`endIdx - start` units suffice.  `cur` is the builder content and `inB`
the `inBlock` flag; the final flush of the source (lines 210-212) is the
`blocks ++ flush` in the exhausted cases. -/
def extractFlush (cur : String) (inB : Bool) : List String :=
  if inB && cur ≠ "" then [goTrim cur] else []

def extractGo (lines : List String) (endIdx : Nat) :
    Nat → Nat → List String → String → Bool → List String
  | 0, _, blocks, cur, inB => blocks ++ extractFlush cur inB
  | fuel + 1, i, blocks, cur, inB =>
    if i < endIdx then
      let trimmed := goTrim (lines.getD i "")
      if strStarts trimmed "───" then
        if checkFinalBox lines i endIdx then
          blocks ++ extractFlush cur inB
        else if inB && cur ≠ "" then
          extractGo lines endIdx fuel (i + 1) (blocks ++ [goTrim cur]) "" false
        else
          extractGo lines endIdx fuel (i + 1) blocks cur inB
      else if isStatusLine trimmed then
        extractGo lines endIdx fuel (i + 1) blocks cur inB
      else if strStarts trimmed "⏵⏵" || strStarts trimmed "❯" then
        extractGo lines endIdx fuel (i + 1) blocks cur inB
      else if isBulletLine trimmed then
        extractGo lines endIdx fuel (i + 1)
          (blocks ++ extractFlush cur inB) (removeBullet trimmed) true
      else if inB then
        if trimmed = "" then
          extractGo lines endIdx fuel (i + 1) blocks (cur ++ "\n") inB
        else
          extractGo lines endIdx fuel (i + 1) blocks (cur ++ "\n" ++ trimmed) inB
      else
        extractGo lines endIdx fuel (i + 1) blocks cur inB
    else blocks ++ extractFlush cur inB

/-- Model of `extractBlocks lines start end` (monitor.go). -/
def extractBlocks (lines : List String) (start endIdx : Nat) : List String :=
  extractGo lines endIdx (endIdx - start) start [] "" false

/-- Model of `blockHash` (monitor.go, lines 44-50).  Go `len` and slicing act
on bytes, so the result is the byte sequence of the trimmed text, cut at
byte 100 when longer. -/
def blockHash (text : String) : List Nat :=
  let normalized := strBytes (goTrim text)
  if 100 < normalized.length then normalized.take 100 else normalized

/-- Model of `isStatusBlock` (monitor.go): short blocks made of transient
status words are dropped at sync time.  The length test is on bytes. -/
def isStatusBlock (text : String) : Bool :=
  let lower := goToLower text
  if (strBytes text).length < 50 then
    strContains lower "thinking" || strContains lower "transfiguring" ||
      strContains lower "spinning" || strContains lower "sautéed" ||
      strContains lower "sauteed" || strContains lower "hashing" ||
      strContains lower "computing" || strContains lower "processing" ||
      strContains lower "loading" || strContains lower "churned" ||
      strContains lower "working" || strContains lower "concocting"
  else false

/-- Model of `blocksEqual` (monitor.go): same length, per-element equality of
whitespace-trimmed texts. -/
def blocksEqual : List String → List String → Bool
  | [], [] => true
  | x :: xs, y :: ys => goTrim x == goTrim y && blocksEqual xs ys
  | _, _ => false

/-- Scenario S1 of the specification: the ten captured pane lines. -/
def scenario1 : List String :=
  ["❯ fix the bug",
   "⏺ Looking at the code…",
   "",
   "I see the issue.",
   "⏺ Read 2 files (ctrl+o to expand)",
   "⏺ The problem is in line 42.",
   "✽ Spinning… (5s)",
   "────",
   "❯",
   "────"]

/-! ## Block cache and chat sync (monitor.go) -/

/-- Model of `CachedBlock` (monitor.go): hash is a Go string, here a byte
sequence since `blockHash` can cut inside a rune. -/
structure CachedBlock where
  text : String
  msgID : Int
  hash : List Nat
deriving DecidableEq

/-- Model of `BlockCache` (monitor.go): the ordered block list and the
hash-to-message-id map (an association list here). -/
structure BlockCache where
  blocks : List CachedBlock
  hashes : List (List Nat × Int)
deriving DecidableEq

/-- Go map read `m[hash]` on the hashes field. -/
def lookupHash (k : List Nat) : List (List Nat × Int) → Option Int
  | [] => none
  | (k', v) :: t => if k' = k then some v else lookupHash k t

/-- Go map write `m[hash] = v` on the hashes field. -/
def insertHash (k : List Nat) (v : Int) : List (List Nat × Int) → List (List Nat × Int)
  | [] => [(k, v)]
  | (k', v') :: t => if k' = k then (k, v) :: t else (k', v') :: insertHash k v t

/-- True when the ordered cache list holds an entry with the given hash. -/
def hasEntry (k : List Nat) (l : List CachedBlock) : Bool :=
  l.any (fun cb => cb.hash = k)

/-- Chat operations performed by one sync round: a freshly posted message,
an edit of an existing message, or a plain notification send. -/
inductive TgOut where
  | posted (msgId : Int) (text : String)
  | edited (msgId : Int) (text : String)
  | plain (text : String)
deriving DecidableEq

/-- In-flight state of `syncBlocksToTelegram`: the hash map, the old ordered
list (mutable in the loop), the new ordered list being built, the next
message id the chat API will allocate, and the emitted operations. -/
structure SyncState where
  hashes : List (List Nat × Int)
  oldBlocks : List CachedBlock
  newBlocks : List CachedBlock
  nextId : Int
  outs : List TgOut
deriving DecidableEq

/-- Inner loop of the `existingMsgID > 0` branch (monitor.go lines 341-354):
find the first cached entry with this hash; if its trimmed text differs
from the current block, update the stored text and edit the chat message;
otherwise edit only when this is the final pass on the last block. -/
def editScan (h : List Nat) (block displayText : String) (displayFinal : Bool)
    (v : Int) : List CachedBlock → List CachedBlock × List TgOut
  | [] => ([], [])
  | cb :: rest =>
    if cb.hash = h then
      if goTrim cb.text ≠ goTrim block then
        ({ cb with text := block } :: rest, [TgOut.edited v displayText])
      else if displayFinal then
        (cb :: rest, [TgOut.edited v displayText])
      else
        (cb :: rest, [])
    else
      let p := editScan h block displayText displayFinal v rest
      (cb :: p.1, p.2)

/-- Sending a new message for a block (monitor.go lines 359-369): the chat
API is modelled as always delivering and returning id `nextId`; the
recording of hash and cache entry is guarded by the positive-id check of
the source. -/
def sendNewBlock (block : String) (h : List Nat) (displayText : String)
    (st : SyncState) : SyncState :=
  let m := st.nextId
  let st1 := { st with outs := st.outs ++ [TgOut.posted m displayText] }
  if 0 < m then
    { st1 with
      hashes := insertHash h m st1.hashes
      newBlocks := st1.newBlocks ++ [⟨block, m, h⟩]
      nextId := m + 1 }
  else st1

/-- One iteration of the block loop of `syncBlocksToTelegram` (monitor.go
lines 320-370).  `displayFinal` is `isFinal && i == len(blocks)-1`. -/
def syncStep (name : String) (displayFinal : Bool) (block : String)
    (st : SyncState) : SyncState :=
  if isStatusBlock block then st
  else
    let h := blockHash block
    let displayText := if displayFinal then "✅ " ++ name ++ "\n\n" ++ block else block
    match lookupHash h st.hashes with
    | some v =>
      if v = -1 then
        { st with newBlocks := st.newBlocks ++ [⟨block, -1, h⟩] }
      else if 0 < v then
        let p := editScan h block displayText displayFinal v st.oldBlocks
        { st with
          oldBlocks := p.1
          outs := st.outs ++ p.2
          newBlocks := st.newBlocks ++ [⟨block, v, h⟩] }
      else
        sendNewBlock block h displayText st
    | none => sendNewBlock block h displayText st

/-- The block loop: the last element gets `displayFinal = isFinal`. -/
def syncAux (name : String) (isFinal : Bool) : List String → SyncState → SyncState
  | [], st => st
  | b :: rest, st =>
    syncAux name isFinal rest (syncStep name (isFinal && rest.isEmpty) b st)

/-- Model of `syncBlocksToTelegram` (monitor.go lines 303-375) for one poll:
the pane blocks are passed in (the source re-captures them; within one poll
the pane is taken as constant).  Returns the saved cache, the emitted chat
operations, the next message id and the return value of the source. -/
def syncBlocks (name : String) (blocks : List String) (cache : BlockCache)
    (isFinal : Bool) (nextId : Int) : BlockCache × List TgOut × Int × Nat :=
  if blocks.isEmpty then (cache, [], nextId, 0)
  else
    let st := syncAux name isFinal blocks
      ⟨cache.hashes, cache.blocks, [], nextId, []⟩
    (⟨st.newBlocks, st.hashes⟩, st.outs, st.nextId, blocks.length)

/-- Model of `SessionMonitor` (monitor.go): the fields the polling logic
reads and writes (timestamps and the unused slow-poll counter are not part
of the control flow). -/
structure MonitorState where
  lastBlocks : List String
  stableCount : Nat
  completed : Bool
deriving DecidableEq

/-- One 3-second tick of `startSessionMonitor` for one session with a live
multiplexer and an existing monitor entry (monitor.go lines 487-526).  The
pane is observed once per tick: `blocks` is the extraction result and
`idle` the idle probe.  Returns the new monitor state, cache, next message
id and the chat operations emitted during the tick. -/
def monitorTick (name : String) (blocks : List String) (idle : Bool)
    (mon : MonitorState) (cache : BlockCache) (nid : Int) :
    MonitorState × BlockCache × Int × List TgOut :=
  if blocks.isEmpty then
    if mon.completed then (mon, cache, nid, [])
    else ({ mon with lastBlocks := [], stableCount := 0 }, cache, nid, [])
  else
    let changed := !(blocksEqual blocks mon.lastBlocks)
    let mon1 := if changed then ⟨blocks, 0, false⟩
      else { mon with stableCount := mon.stableCount + 1 }
    let r1 := if changed then syncBlocks name blocks cache false nid
      else (cache, [], nid, blocks.length)
    if !mon1.completed && decide (3 ≤ mon1.stableCount) && idle then
      let r2 := syncBlocks name blocks r1.1 true r1.2.2.1
      let outs2 := if r2.2.2.2 = 0 then r2.2.1 ++ [TgOut.plain ("✅ " ++ name)]
        else r2.2.1
      ({ mon1 with completed := true }, r2.1, r2.2.2.1, r1.2.1 ++ outs2)
    else (mon1, r1.1, r1.2.2.1, r1.2.1)

/-- Iterated ticks with a constant pane observation, accumulating the chat
operations in order. -/
def runTicks (name : String) (blocks : List String) (idle : Bool) :
    Nat → MonitorState × BlockCache × Int →
    (MonitorState × BlockCache × Int) × List TgOut
  | 0, s => (s, [])
  | n + 1, (mon, cache, nid) =>
    let r := monitorTick name blocks idle mon cache nid
    let rest := runTicks name blocks idle n (r.1, r.2.1, r.2.2.1)
    (rest.1, r.2.2.2 ++ rest.2)

/-- Chat operations that carry the final-turn marker: their text starts with
the check-mark prefix. -/
def isFinalOut : TgOut → Bool
  | TgOut.posted _ t => strStarts t "✅ "
  | TgOut.edited _ t => strStarts t "✅ "
  | TgOut.plain t => strStarts t "✅ "

/-- Number of final-marked chat operations in a trace. -/
def countFinals (outs : List TgOut) : Nat :=
  (outs.filter isFinalOut).length

/-- Cache seeding of `initializeMonitors` (monitor.go lines 406-419): every
currently-visible block whose hash is not yet known is recorded with the
sentinel message id -1. -/
def seedCache : List String → BlockCache → BlockCache
  | [], cache => cache
  | b :: rest, cache =>
    let h := blockHash b
    match lookupHash h cache.hashes with
    | some _ => seedCache rest cache
    | none =>
      seedCache rest
        ⟨cache.blocks ++ [⟨b, -1, h⟩], insertHash h (-1) cache.hashes⟩

/-- Model of `loadBlockCache` (monitor.go lines 52-63).  File reading and
JSON decoding are oracles: `readData` is the file content when readable and
`unmarshal` the decoder, returning none on malformed input. -/
def loadBlockCacheModel (readData : Option String)
    (unmarshal : String → Option BlockCache) : BlockCache :=
  match readData with
  | none => ⟨[], []⟩
  | some d =>
    match unmarshal d with
    | none => ⟨[], []⟩
    | some c => c

/-- Side condition on the cache under which the completion pass can mark the
last block: it is not a transient status block, its hash is not the
restart sentinel -1, and a positively-numbered hash still has its entry in
the ordered cache list (so the edit loop finds the message to edit). -/
def lastOK (cache : BlockCache) (lst : String) : Bool :=
  !isStatusBlock lst &&
    (match lookupHash (blockHash lst) cache.hashes with
     | none => true
     | some v => !(v == -1) && (!(decide (0 < v)) || hasEntry (blockHash lst) cache.blocks))

/-! ## Hash truncation (C4) -/

/-- Reading of the hash rule with character counts, following the words of
the specification; compared against the byte-based `blockHash` of the
source. -/
def blockHashChars (text : String) : List Nat :=
  let t := goTrim text
  if t.data.length ≤ 100 then strBytes t else strBytes ⟨t.data.take 100⟩

/-- A 34-rune block of bullet glyphs: 34 characters but 102 UTF-8 bytes. -/
def sC4 : String := ⟨List.replicate 34 '⏺'⟩

def aC4 : String := ⟨List.replicate 101 'x'⟩

def bC4 : String := ⟨List.replicate 102 'x'⟩

/-! ## Streaming relay (relay.go) -/

/-- Model of `relayTransfer` (relay.go): the two channels are represented by
generation counters, incremented exactly when the source re-creates the
channels. -/
structure RelayTransfer where
  token : String
  filename : String
  size : Int
  status : String
  created : Nat
  dataGen : Nat
  doneGen : Nat
deriving DecidableEq

/-- Model of the relay transfer table. -/
structure RelayState where
  transfers : List (String × RelayTransfer)
deriving DecidableEq

def lookupTransfer (t : String) :
    List (String × RelayTransfer) → Option RelayTransfer
  | [] => none
  | (k, v) :: rest => if k = t then some v else lookupTransfer t rest

def updateTransfer (t : String) (v : RelayTransfer) :
    List (String × RelayTransfer) → List (String × RelayTransfer)
  | [] => []
  | (k, w) :: rest =>
    if k = t then (k, v) :: rest else (k, w) :: updateTransfer t v rest

/-- Admission decision of the `/d/` download handler. -/
inductive DlDecision where
  | forbidden
  | headOk
  | notFound
  | conflict
  | accepted
deriving DecidableEq

/-- First path segment, as `strings.SplitN(s, "/", 2)[0]`. -/
def firstSeg (s : String) : String :=
  ⟨s.data.takeWhile (fun c => c ≠ '/')⟩

/-- Model of the admission part of the `/d/` handler of `runRelayServer`
(relay.go lines 323-358): the User-Agent filter, the HEAD filter, the
token lookup with the waiting-to-ready transition (re-creating both
channels), and the 404 and 409 rejections.  The streaming body that
follows acceptance moves bytes between concurrent channels and is outside
this pure model. -/
def downloadEntry (st : RelayState) (method ua path : String) :
    DlDecision × RelayState :=
  if strContains ua "TelegramBot" || strContains ua "Telegram" then
    (DlDecision.forbidden, st)
  else if method = "HEAD" then (DlDecision.headOk, st)
  else
    let token := firstSeg (strTrimPre path "/d/")
    match lookupTransfer token st.transfers with
    | none => (DlDecision.notFound, st)
    | some t =>
      let t1 := if t.status = "waiting" then
          { t with
            status := "ready"
            dataGen := t.dataGen + 1
            doneGen := t.doneGen + 1 }
        else t
      let st1 : RelayState := ⟨updateTransfer token t1 st.transfers⟩
      if t1.status ≠ "ready" ∧ t1.status ≠ "streaming" then
        (DlDecision.conflict, st1)
      else (DlDecision.accepted, st1)

/-! ## Session identifiers (session.go, commands.go) -/

/-- Dot replacement used by `sessionName` (session.go lines 17-21): tmux
treats dots as window separators in targets. -/
def replaceDots (s : String) : String :=
  ⟨s.data.map (fun c => if c = '.' then '_' else c)⟩

/-- Model of `sessionName` (session.go): the canonical multiplexer id. -/
def sessionName (name : String) : String :=
  "claude-" ++ replaceDots name

/-- Multiplexer id formed by the `/new <name>` creation handler
(commands.go line 1004): the raw argument is concatenated, dots are NOT
replaced. -/
def newSessionTmuxName (arg : String) : String :=
  "claude-" ++ arg

/-- Multiplexer id formed by the `/new` restart handler (commands.go line
1025): dots are replaced inline. -/
def restartTmuxName (name : String) : String :=
  "claude-" ++ replaceDots name

/-! ## Multiplexer existence check (tmux.go) -/

/-- Modelled from the spec: the terminal multiplexer resolves a bare
`has-session -t <target>` with its default target matching, which accepts
any existing session whose name begins with the target (the exact-match
form would mark the target with a leading equals sign).  The session list
stands for the sessions alive on the server. -/
def tmuxTargetMatches (target session : String) : Bool :=
  listStarts target.data session.data

/-- Model of `tmuxSessionExists` (tmux.go lines 63-66): the name is passed
to `has-session -t` verbatim, without the exact-match form. -/
def tmuxSessionExists (name : String) (sessions : List String) : Bool :=
  sessions.any (tmuxTargetMatches name)

/-! ## Config loading and migration (loadConfig) -/

/-- Model of `SessionInfo`. -/
structure SessionInfo where
  topicID : Int
  path : String
deriving DecidableEq

/-- Decoded fields of an old-format on-disk config, whose sessions entry is
an integer-valued map. -/
structure OldConfigDisk where
  botToken : String
  chatID : Int
  groupID : Int
  projectsDir : String
  away : Bool
  sessions : List (String × Int)
deriving DecidableEq

/-- In-memory config after loading. -/
structure ConfigMem where
  botToken : String
  chatID : Int
  groupID : Int
  projectsDir : String
  away : Bool
  sessions : List (String × SessionInfo)
deriving DecidableEq

/-- Model of `filepath.Join` for clean components without boundary slashes
(the shapes the loader produces). -/
def joinGo (a b : String) : String :=
  if a = "" then b else if b = "" then a else a ++ "/" ++ b

/-- Path inference of the migration branch of `loadConfig` (lines 716-733):
an absolute name is used verbatim, a home-relative name is expanded, else
the name is joined to the configured projects directory (itself expanded
when home-relative), or to home when unset. -/
def oldSessionPath (home projectsDir name : String) : String :=
  if strStarts name "/" then name
  else if strStarts name "~/" then joinGo home ⟨name.data.drop 2⟩
  else if projectsDir ≠ "" then
    joinGo (if strStarts projectsDir "~/" then
        joinGo home ⟨projectsDir.data.drop 2⟩
      else projectsDir) name
  else joinGo home name

/-- Model of `loadConfig` on old-format disk data (lines 665-753).  Migration
fires when the integer-valued sessions map is nonempty and has a positive
value; the migrated config is saved back to disk at once (the boolean).
Without migration the loader re-decodes the same bytes in the new record
format, which fails on integer-valued sessions; that error is the none
case. -/
def loadConfigOld (home : String) (raw : OldConfigDisk) :
    Option (ConfigMem × Bool) :=
  let needsMigration :=
    !raw.sessions.isEmpty && raw.sessions.any (fun p => decide (0 < p.2))
  if needsMigration then
    some ({ botToken := raw.botToken, chatID := raw.chatID,
            groupID := raw.groupID, projectsDir := raw.projectsDir,
            away := raw.away,
            sessions := raw.sessions.map (fun p =>
              (p.1, ⟨p.2, oldSessionPath home raw.projectsDir p.1⟩)) }, true)
  else none

def rawC8 : OldConfigDisk := ⟨"", 0, 0, "~/projects", false, [("foo", 42)]⟩

/-! ## Message splitting (telegram.go) -/

/-- Model of `strings.LastIndex` for a one-byte needle: the largest index
holding the byte, or -1. -/
def lastIndexByte (c : Nat) : List Nat → Int
  | [] => -1
  | a :: t =>
    let r := lastIndexByte c t
    if 0 ≤ r then r + 1 else if a = c then 0 else -1

/-- Model of `strings.TrimRight(s, " \n")`: drop trailing space and newline
bytes. -/
def trimRightSpaceNL (l : List Nat) : List Nat :=
  (l.reverse.dropWhile (fun b => b == 32 || b == 10)).reverse

/-- Split-point computation of one loop iteration of `splitMessage`
(telegram.go lines 275-284): after the last newline of the first maxLen
bytes when it lies strictly past the halfway point, else after the last
such space, else at maxLen. -/
def goSplitAt (text : List Nat) (maxLen : Nat) : Nat :=
  if ((maxLen / 2 : Nat) : Int) < lastIndexByte 10 (text.take maxLen) then
    (lastIndexByte 10 (text.take maxLen)).toNat + 1
  else if ((maxLen / 2 : Nat) : Int) < lastIndexByte 32 (text.take maxLen) then
    (lastIndexByte 32 (text.take maxLen)).toNat + 1
  else maxLen

/-- Loop of `splitMessage` (telegram.go lines 269-288) with explicit fuel;
each iteration consumes at least one byte, so length + 1 units suffice. -/
def splitMsgAux (maxLen : Nat) : Nat → List Nat → List (List Nat)
  | 0, _ => []
  | fuel + 1, remaining =>
    if remaining.isEmpty then []
    else if remaining.length ≤ maxLen then [remaining]
    else
      trimRightSpaceNL (remaining.take (goSplitAt remaining maxLen)) ::
        splitMsgAux maxLen fuel (remaining.drop (goSplitAt remaining maxLen))

/-- Model of `splitMessage` (telegram.go lines 261-291) over byte lists. -/
def splitMessage (text : List Nat) (maxLen : Nat) : List (List Nat) :=
  if text.length ≤ maxLen then [text]
  else splitMsgAux maxLen (text.length + 1) text

/-- Statement of the split-point rule as the specification words it, for the
4000-byte splitter: immediately after the last newline of the first 4000
bytes when that newline lies strictly beyond byte 2000, otherwise
immediately after the last space beyond byte 2000, otherwise exactly at
byte 4000. -/
def splitAtRule (text : List Nat) (s : Nat) : Prop :=
  let w := text.take 4000
  (∃ i, i < w.length ∧ w.getD i 0 = 10 ∧ 2000 < i ∧
    (∀ j, i < j → j < w.length → w.getD j 0 ≠ 10) ∧ s = i + 1) ∨
  ((∀ i, 2000 < i → i < w.length → w.getD i 0 ≠ 10) ∧
    ∃ i, i < w.length ∧ w.getD i 0 = 32 ∧ 2000 < i ∧
      (∀ j, i < j → j < w.length → w.getD j 0 ≠ 32) ∧ s = i + 1) ∨
  ((∀ i, 2000 < i → i < w.length → w.getD i 0 ≠ 10) ∧
    (∀ i, 2000 < i → i < w.length → w.getD i 0 ≠ 32) ∧ s = 4000)

def wC9 : List Nat := List.replicate 4001 97

/-! ## Theorems -/

/-- C1: on the ten-line pane capture of scenario S1, block extraction over
the range just after the prompt line returns exactly the three expected
blocks in order; the spinner line is skipped without breaking a block and
extraction stops at the separator followed by the empty prompt. -/
theorem extract_c1 : extractBlocks scenario1 1 10 =
    ["Looking at the code…\n\nI see the issue.",
     "Read 2 files (ctrl+o to expand)",
     "The problem is in line 42."] := by decide

/-! ## Helper lemmas on the map and trace primitives -/

theorem lookupHash_insert_self (k : List Nat) (v : Int) :
    ∀ m, lookupHash k (insertHash k v m) = some v := by
  intro m
  induction m with
  | nil => simp [insertHash, lookupHash]
  | cons p t ih =>
    obtain ⟨k1, v1⟩ := p
    by_cases h : k1 = k
    · simp_all [insertHash, lookupHash]
    · simp_all [insertHash, lookupHash]

theorem lookupHash_insert_ne (k k0 : List Nat) (v : Int) (hne : k0 ≠ k) :
    ∀ m, lookupHash k (insertHash k0 v m) = lookupHash k m := by
  intro m
  induction m with
  | nil => simp [insertHash, lookupHash, hne]
  | cons p t ih =>
    obtain ⟨k1, v1⟩ := p
    by_cases h : k1 = k0
    · simp_all [insertHash, lookupHash]
    · by_cases h2 : k1 = k <;> simp_all [insertHash, lookupHash]

theorem countFinals_append (a b : List TgOut) :
    countFinals (a ++ b) = countFinals a + countFinals b := by
  simp [countFinals, List.filter_append]

theorem listStarts_self_append (p t : List Char) :
    listStarts p (p ++ t) = true := by
  induction p with
  | nil => simp [listStarts]
  | cons a p ih => simp [listStarts, ih]

theorem blocksEqual_refl (l : List String) : blocksEqual l l = true := by
  induction l with
  | nil => simp [blocksEqual]
  | cons x xs ih => simp [blocksEqual, ih]

theorem strStarts_final_marker (name lst : String) :
    strStarts ("✅ " ++ name ++ "\n\n" ++ lst) "✅ " = true := by
  have h : ("✅ " ++ name ++ "\n\n" ++ lst).data
      = "✅ ".data ++ (name.data ++ ("\n\n".data ++ lst.data)) := by
    simp [String.data_append]
  unfold strStarts
  rw [h]
  exact listStarts_self_append _ _

theorem editScan_outs (h : List Nat) (block dt : String) (df : Bool) (v : Int) :
    ∀ l, (editScan h block dt df v l).2 = [] ∨
      (editScan h block dt df v l).2 = [TgOut.edited v dt] := by
  intro l
  induction l with
  | nil => simp [editScan]
  | cons cb rest ih =>
    by_cases hh : cb.hash = h
    · by_cases ht : goTrim cb.text ≠ goTrim block
      · simp [editScan, hh, ht]
      · by_cases hf : df = true <;> simp [editScan, hh, ht, hf]
    · simpa [editScan, hh] using ih

theorem editScan_hasEntry (h k : List Nat) (block dt : String) (df : Bool) (v : Int) :
    ∀ l, hasEntry k (editScan h block dt df v l).1 = hasEntry k l := by
  intro l
  induction l with
  | nil => simp [editScan]
  | cons cb rest ih =>
    by_cases hh : cb.hash = h
    · by_cases ht : goTrim cb.text ≠ goTrim block
      · simp [editScan, hh, ht, hasEntry]
      · by_cases hf : df = true <;> simp [editScan, hh, ht, hf, hasEntry]
    · have ih2 := ih
      unfold hasEntry at ih2
      simp [editScan, hh, hasEntry, ih2]

theorem editScan_final (h : List Nat) (block dt : String) (v : Int) :
    ∀ l, hasEntry h l = true → (editScan h block dt true v l).2 = [TgOut.edited v dt] := by
  intro l
  induction l with
  | nil => simp [hasEntry]
  | cons cb rest ih =>
    intro hmem
    by_cases hh : cb.hash = h
    · by_cases ht : goTrim cb.text ≠ goTrim block
      · simp [editScan, hh, ht]
      · simp [editScan, hh, ht]
    · have hrest : hasEntry h rest = true := by
        simp [hasEntry] at hmem ⊢
        rcases hmem with h1 | h2
        · exact absurd h1 hh
        · exact h2
      simp [editScan, hh, ih hrest]

theorem syncStep_seeded (name : String) (fin : Bool) (b : String) (st : SyncState)
    (h : lookupHash (blockHash b) st.hashes = some (-1)) :
    (syncStep name fin b st).outs = st.outs ∧
    (syncStep name fin b st).hashes = st.hashes ∧
    ((syncStep name fin b st).newBlocks = st.newBlocks ∨
      (syncStep name fin b st).newBlocks
        = st.newBlocks ++ [⟨b, -1, blockHash b⟩]) := by
  by_cases hs : isStatusBlock b
  · simp [syncStep, hs]
  · simp [syncStep, hs, h]

theorem sendNewBlock_outs (b : String) (h0 : List Nat) (dt : String)
    (st : SyncState) :
    (sendNewBlock b h0 dt st).outs = st.outs ++ [TgOut.posted st.nextId dt] := by
  by_cases hp : (0 : Int) < st.nextId <;> simp [sendNewBlock, hp]

theorem sendNewBlock_hashes_ne (b : String) (h0 k : List Nat) (dt : String)
    (st : SyncState) (hk : h0 ≠ k) :
    lookupHash k (sendNewBlock b h0 dt st).hashes = lookupHash k st.hashes := by
  by_cases hp : (0 : Int) < st.nextId <;>
    simp [sendNewBlock, hp, lookupHash_insert_ne _ _ _ hk]

theorem sendNewBlock_old (b : String) (h0 : List Nat) (dt : String)
    (st : SyncState) :
    (sendNewBlock b h0 dt st).oldBlocks = st.oldBlocks := by
  by_cases hp : (0 : Int) < st.nextId <;> simp [sendNewBlock, hp]

theorem syncStep_pre (name b : String) (st : SyncState) (k : List Nat)
    (hb : blockHash b ≠ k) (hw : strStarts b "✅ " = false) :
    countFinals (syncStep name false b st).outs = countFinals st.outs ∧
    lookupHash k (syncStep name false b st).hashes = lookupHash k st.hashes ∧
    hasEntry k (syncStep name false b st).oldBlocks = hasEntry k st.oldBlocks := by
  by_cases hs : isStatusBlock b
  · simp [syncStep, hs]
  · rcases hv : lookupHash (blockHash b) st.hashes with _ | v
    · refine ⟨?_, ?_, ?_⟩
      · simp [syncStep, hs, hv, sendNewBlock_outs, countFinals_append,
          countFinals, isFinalOut, hw]
      · simp [syncStep, hs, hv, sendNewBlock_hashes_ne _ _ _ _ _ hb]
      · simp [syncStep, hs, hv, sendNewBlock_old]
    · by_cases h1 : v = -1
      · simp [syncStep, hs, hv, h1]
      · by_cases h2 : (0 : Int) < v
        · rcases editScan_outs (blockHash b) b b false v st.oldBlocks with ho | ho <;>
            simp [syncStep, hs, hv, h1, h2, ho, countFinals_append, countFinals,
              isFinalOut, hw, editScan_hasEntry]
        · refine ⟨?_, ?_, ?_⟩
          · simp [syncStep, hs, hv, h1, h2, sendNewBlock_outs, countFinals_append,
              countFinals, isFinalOut, hw]
          · simp [syncStep, hs, hv, h1, h2, sendNewBlock_hashes_ne _ _ _ _ _ hb]
          · simp [syncStep, hs, hv, h1, h2, sendNewBlock_old]

theorem syncStep_last (name lst : String) (st : SyncState)
    (h1 : isStatusBlock lst = false)
    (h2 : lookupHash (blockHash lst) st.hashes = none ∨
      ∃ v, lookupHash (blockHash lst) st.hashes = some v ∧ v ≠ -1 ∧
        (0 < v → hasEntry (blockHash lst) st.oldBlocks = true)) :
    countFinals (syncStep name true lst st).outs = countFinals st.outs + 1 := by
  rcases h2 with hv | ⟨v, hv, hne, hent⟩
  · simp [syncStep, h1, hv, sendNewBlock_outs, countFinals_append, countFinals,
      isFinalOut, strStarts_final_marker]
  · by_cases h3 : (0 : Int) < v
    · have he := editScan_final (blockHash lst) lst
        ("✅ " ++ name ++ "\n\n" ++ lst) v st.oldBlocks (hent h3)
      simp [syncStep, h1, hv, hne, h3, he, countFinals_append, countFinals,
        isFinalOut, strStarts_final_marker]
    · simp [syncStep, h1, hv, hne, h3, sendNewBlock_outs, countFinals_append,
        countFinals, isFinalOut, strStarts_final_marker]

theorem syncAux_all_seeded (name : String) (fin : Bool) :
    ∀ (blocks : List String) (st : SyncState),
    (∀ b ∈ blocks, lookupHash (blockHash b) st.hashes = some (-1)) →
    (syncAux name fin blocks st).outs = st.outs ∧
    (syncAux name fin blocks st).hashes = st.hashes ∧
    ∀ cb ∈ (syncAux name fin blocks st).newBlocks,
      cb ∈ st.newBlocks ∨ cb.msgID = -1 := by
  intro blocks
  induction blocks with
  | nil =>
    intro st _
    refine ⟨by simp [syncAux], by simp [syncAux], ?_⟩
    intro cb hcb
    simp only [syncAux] at hcb
    exact Or.inl hcb
  | cons b rest ih =>
    intro st hall
    have hb := hall b (by simp)
    obtain ⟨ho, hh, hn⟩ := syncStep_seeded name (fin && rest.isEmpty) b st hb
    set st1 := syncStep name (fin && rest.isEmpty) b st with hst1
    have hall1 : ∀ b2 ∈ rest, lookupHash (blockHash b2) st1.hashes = some (-1) := by
      intro b2 hb2
      rw [hh]
      exact hall b2 (by simp [hb2])
    obtain ⟨io, ihh, inb⟩ := ih st1 hall1
    refine ⟨?_, ?_, ?_⟩
    · simpa [syncAux, io] using ho
    · simpa [syncAux, ihh] using hh
    · intro cb hcb
      simp only [syncAux] at hcb
      rcases inb cb hcb with hmem | hm1
      · rcases hn with hsame | happ
        · rw [hsame] at hmem
          exact Or.inl hmem
        · rw [happ] at hmem
          rcases List.mem_append.mp hmem with hm | hm
          · exact Or.inl hm
          · simp at hm
            right
            rw [hm]
      · exact Or.inr hm1

theorem syncAux_final_count (name lst : String) :
    ∀ (pre : List String) (st : SyncState),
    (∀ b ∈ pre, blockHash b ≠ blockHash lst ∧ strStarts b "✅ " = false) →
    isStatusBlock lst = false →
    (lookupHash (blockHash lst) st.hashes = none ∨
      ∃ v, lookupHash (blockHash lst) st.hashes = some v ∧ v ≠ -1 ∧
        (0 < v → hasEntry (blockHash lst) st.oldBlocks = true)) →
    countFinals (syncAux name true (pre ++ [lst]) st).outs
      = countFinals st.outs + 1 := by
  intro pre
  induction pre with
  | nil =>
    intro st _ h1 h2
    have : syncAux name true [lst] st = syncStep name true lst st := by
      simp [syncAux]
    rw [show ([] : List String) ++ [lst] = [lst] from rfl, this]
    exact syncStep_last name lst st h1 h2
  | cons b pre ih =>
    intro st hpre h1 h2
    obtain ⟨hbne, hbw⟩ := hpre b (by simp)
    have hne : ((pre ++ [lst]).isEmpty) = false := by simp
    have hstep : syncAux name true ((b :: pre) ++ [lst]) st
        = syncAux name true (pre ++ [lst]) (syncStep name false b st) := by
      simp [syncAux, hne]
    obtain ⟨co, ch, ce⟩ := syncStep_pre name b st (blockHash lst) hbne hbw
    rw [hstep]
    have h2' : lookupHash (blockHash lst) (syncStep name false b st).hashes = none ∨
        ∃ v, lookupHash (blockHash lst) (syncStep name false b st).hashes = some v ∧
          v ≠ -1 ∧ (0 < v →
            hasEntry (blockHash lst) (syncStep name false b st).oldBlocks = true) := by
      rw [ch, ce]
      exact h2
    have := ih (syncStep name false b st)
      (fun b2 hb2 => hpre b2 (by simp [hb2])) h1 h2'
    rw [this, co]

theorem seedCache_preserve :
    ∀ (blocks : List String) (cache : BlockCache) (k : List Nat) (w : Int),
    lookupHash k cache.hashes = some w →
    lookupHash k (seedCache blocks cache).hashes = some w := by
  intro blocks
  induction blocks with
  | nil => intro cache k w h; simpa [seedCache] using h
  | cons x rest ih =>
    intro cache k w h
    rcases hl : lookupHash (blockHash x) cache.hashes with _ | v
    · have hne : blockHash x ≠ k := by
        intro he
        rw [he, h] at hl
        cases hl
      have h1 : lookupHash k
          (insertHash (blockHash x) (-1) cache.hashes) = some w := by
        rw [lookupHash_insert_ne _ _ _ hne]
        exact h
      simpa [seedCache, hl] using
        ih ⟨cache.blocks ++ [⟨x, -1, blockHash x⟩],
          insertHash (blockHash x) (-1) cache.hashes⟩ k w h1
    · simpa [seedCache, hl] using ih cache k w h

theorem seedCache_fresh :
    ∀ (blocks : List String) (cache : BlockCache) (b : String), b ∈ blocks →
    lookupHash (blockHash b) cache.hashes = none →
    lookupHash (blockHash b) (seedCache blocks cache).hashes = some (-1) := by
  intro blocks
  induction blocks with
  | nil => intro cache b hmem; simp at hmem
  | cons x rest ih =>
    intro cache b hmem hnone
    rcases hl : lookupHash (blockHash x) cache.hashes with _ | v
    · by_cases hbx : blockHash b = blockHash x
      · have h1 : lookupHash (blockHash b)
            (insertHash (blockHash x) (-1) cache.hashes) = some (-1) := by
          rw [hbx]
          exact lookupHash_insert_self _ _ _
        simpa [seedCache, hl] using
          seedCache_preserve rest ⟨cache.blocks ++ [⟨x, -1, blockHash x⟩],
            insertHash (blockHash x) (-1) cache.hashes⟩ (blockHash b) (-1) h1
      · have hmem2 : b ∈ rest := by
          rcases List.mem_cons.mp hmem with hbe | hr
          · exact absurd (by rw [hbe]) hbx
          · exact hr
        have h1 : lookupHash (blockHash b)
            (insertHash (blockHash x) (-1) cache.hashes) = none := by
          rw [lookupHash_insert_ne _ _ _ (fun he => hbx he.symm)]
          exact hnone
        simpa [seedCache, hl] using
          ih ⟨cache.blocks ++ [⟨x, -1, blockHash x⟩],
            insertHash (blockHash x) (-1) cache.hashes⟩ b hmem2 h1
    · have hmem2 : b ∈ rest := by
        rcases List.mem_cons.mp hmem with hbe | hr
        · rw [hbe] at hnone
          rw [hnone] at hl
          cases hl
        · exact hr
      simpa [seedCache, hl] using ih cache b hmem2 hnone

theorem syncBlocks_ret (name : String) (blocks : List String) (cache : BlockCache)
    (fin : Bool) (nid : Int) (h : blocks.isEmpty = false) :
    (syncBlocks name blocks cache fin nid).2.2.2 = blocks.length := by
  simp [syncBlocks, h]

theorem monitorTick_quiet (name : String) (B : List String) (idle : Bool)
    (cache : BlockCache) (nid : Int) (k : Nat) (hk : k + 1 < 3)
    (hB : B.isEmpty = false) :
    monitorTick name B idle ⟨B, k, false⟩ cache nid
      = (⟨B, k + 1, false⟩, cache, nid, []) := by
  have h3 : ¬ (3 ≤ k + 1) := by omega
  simp [monitorTick, hB, blocksEqual_refl, h3]

theorem monitorTick_final (name : String) (B : List String)
    (cache : BlockCache) (nid : Int) (hB : B.isEmpty = false) :
    monitorTick name B true ⟨B, 2, false⟩ cache nid
      = (⟨B, 3, true⟩, (syncBlocks name B cache true nid).1,
          (syncBlocks name B cache true nid).2.2.1,
          (syncBlocks name B cache true nid).2.1) := by
  have hn : (syncBlocks name B cache true nid).2.2.2 = B.length :=
    syncBlocks_ret name B cache true nid hB
  have hlen : B.length ≠ 0 := by
    cases B with
    | nil => simp at hB
    | cons x xs => simp
  simp [monitorTick, hB, blocksEqual_refl, hn, hlen]

theorem monitorTick_completed (name : String) (B : List String) (idle : Bool)
    (cache : BlockCache) (nid : Int) (k : Nat) (hB : B.isEmpty = false) :
    monitorTick name B idle ⟨B, k, true⟩ cache nid
      = (⟨B, k + 1, true⟩, cache, nid, []) := by
  simp [monitorTick, hB, blocksEqual_refl]

theorem runTicks_completed (name : String) (B : List String) (idle : Bool)
    (hB : B.isEmpty = false) :
    ∀ (m k : Nat) (cache : BlockCache) (nid : Int),
    runTicks name B idle m (⟨B, k, true⟩, cache, nid)
      = ((⟨B, k + m, true⟩, cache, nid), []) := by
  intro m
  induction m with
  | zero => intro k cache nid; simp [runTicks]
  | succ m ih =>
    intro k cache nid
    have e1 := monitorTick_completed name B idle cache nid k hB
    have e2 := ih (k + 1) cache nid
    simp only [runTicks, e1, e2]
    have : k + 1 + m = k + (m + 1) := by omega
    rw [this]
    simp

theorem lastOK_spec (cache : BlockCache) (lst : String)
    (h : lastOK cache lst = true) :
    isStatusBlock lst = false ∧
    (lookupHash (blockHash lst) cache.hashes = none ∨
      ∃ v, lookupHash (blockHash lst) cache.hashes = some v ∧ v ≠ -1 ∧
        (0 < v → hasEntry (blockHash lst) cache.blocks = true)) := by
  rcases hv : lookupHash (blockHash lst) cache.hashes with _ | v
  · simp [lastOK, hv] at h
    exact ⟨by simp [h], Or.inl rfl⟩
  · simp [lastOK, hv] at h
    obtain ⟨h1, h2, h3⟩ := h
    refine ⟨by simp [h1], Or.inr ⟨v, rfl, h2, ?_⟩⟩
    intro hpos
    rcases h3 with hnp | he
    · omega
    · exact he

theorem syncBlocks_final_count (name lst : String) (pre : List String)
    (cache : BlockCache) (nid : Int)
    (hok : lastOK cache lst = true)
    (hpre : ∀ b ∈ pre, blockHash b ≠ blockHash lst ∧ strStarts b "✅ " = false) :
    countFinals (syncBlocks name (pre ++ [lst]) cache true nid).2.1 = 1 := by
  obtain ⟨h1, h2⟩ := lastOK_spec cache lst hok
  have hne : ((pre ++ [lst]).isEmpty) = false := by simp
  have := syncAux_final_count name lst pre
    ⟨cache.hashes, cache.blocks, [], nid, []⟩ hpre h1 h2
  simpa [syncBlocks, hne, countFinals] using this

/-- C2 counterexample: with an empty extracted block list B the premise of
the claim holds (B is extracted at one poll, the pane is idle, B stays
unchanged over three further polls), yet the monitor loop leaves the
empty-blocks branch through its early continue, so after four idle polls
no chat operation at all has been emitted, no bare "✅"-message was
posted, and completed is still false. -/
theorem monitor_c2_counterexample :
    (runTicks "s" [] true 4 (⟨["old"], 0, false⟩, ⟨[], []⟩, 1)).2 = [] ∧
    (runTicks "s" [] true 4 (⟨["old"], 0, false⟩, ⟨[], []⟩, 1)).1.1.completed
      = false := by decide

/-- C2 (amended): consider a session whose monitor just observed the
nonempty block list B = pre ++ [lst] (lastBlocks = B, stableCount = 0,
completed = false), where no block of B carries the final marker as its
own text, no earlier block shares the dedup hash of the last block, and
the cache satisfies lastOK for the last block (it is not a status block,
not the -1 restart sentinel, and a previously sent copy still has its
cache entry).  If the pane stays at B and idle, then over any 3 + m
further polls the mirror emits exactly one "✅"-marked final operation --
an edit of the last block message or a new "✅"-marked post -- and sets
completed, so no further final message follows while the monitor is not
reset.  With empty B the completion step never runs (see the
counterexample). -/
theorem monitor_c2_amended (name lst : String) (pre : List String)
    (cache : BlockCache) (nid : Int) (m : Nat)
    (hok : lastOK cache lst = true)
    (hpre : ∀ b ∈ pre, blockHash b ≠ blockHash lst ∧ strStarts b "✅ " = false) :
    countFinals (runTicks name (pre ++ [lst]) true (3 + m)
      (⟨pre ++ [lst], 0, false⟩, cache, nid)).2 = 1 ∧
    (runTicks name (pre ++ [lst]) true (3 + m)
      (⟨pre ++ [lst], 0, false⟩, cache, nid)).1.1.completed = true := by
  have hB : ((pre ++ [lst]).isEmpty) = false := by simp
  have e1 := monitorTick_quiet name (pre ++ [lst]) true cache nid 0 (by omega) hB
  have e2 := monitorTick_quiet name (pre ++ [lst]) true cache nid 1 (by omega) hB
  have e3 := monitorTick_final name (pre ++ [lst]) cache nid hB
  have e4 := runTicks_completed name (pre ++ [lst]) true hB m 3
    (syncBlocks name (pre ++ [lst]) cache true nid).1
    (syncBlocks name (pre ++ [lst]) cache true nid).2.2.1
  have hcount := syncBlocks_final_count name lst pre cache nid hok hpre
  rw [show 3 + m = ((m + 1) + 1) + 1 from by omega]
  simp only [runTicks, e1, e2, e3, e4]
  constructor
  · simpa [countFinals_append, countFinals] using hcount
  · trivial

/-- Witness for the amended C2 theorem at a concrete run: one block, empty
cache, five polls. -/
theorem monitor_c2_amended_witness :
    lastOK ⟨[], []⟩ "All done here." = true ∧
    countFinals (runTicks "proj" ([] ++ ["All done here."]) true (3 + 2)
      (⟨[] ++ ["All done here."], 0, false⟩, ⟨[], []⟩, 1)).2 = 1 ∧
    (runTicks "proj" ([] ++ ["All done here."]) true (3 + 2)
      (⟨[] ++ ["All done here."], 0, false⟩, ⟨[], []⟩, 1)).1.1.completed = true :=
  ⟨by decide,
   (monitor_c2_amended "proj" "All done here." [] ⟨[], []⟩ 1 2 (by decide)
     (by decide)).1,
   (monitor_c2_amended "proj" "All done here." [] ⟨[], []⟩ 1 2 (by decide)
     (by decide)).2⟩

/-- C3: blocks seeded with the -1 sentinel are never posted again.  First,
startup seeding binds the hash of every visible block that was not yet
known to -1.  Second, one sync iteration on a block whose hash is bound to
-1 emits no chat operation, leaves the hash map unchanged, and at most
re-records the block in the ordered list with message id -1 (a transient
status block is dropped without being re-recorded, and still nothing is
posted).  Third, a whole sync over blocks that are all bound to -1 emits
nothing and re-records only -1 entries. -/
theorem sync_seeded_c3 :
    (∀ (blocks : List String) (cache : BlockCache) (b : String), b ∈ blocks →
      lookupHash (blockHash b) cache.hashes = none →
      lookupHash (blockHash b) (seedCache blocks cache).hashes = some (-1)) ∧
    (∀ (name : String) (fin : Bool) (b : String) (st : SyncState),
      lookupHash (blockHash b) st.hashes = some (-1) →
      (syncStep name fin b st).outs = st.outs ∧
      (syncStep name fin b st).hashes = st.hashes ∧
      ((syncStep name fin b st).newBlocks = st.newBlocks ∨
        (syncStep name fin b st).newBlocks
          = st.newBlocks ++ [⟨b, -1, blockHash b⟩])) ∧
    (∀ (name : String) (fin : Bool) (blocks : List String) (cache : BlockCache)
      (nid : Int), blocks.isEmpty = false →
      (∀ b ∈ blocks, lookupHash (blockHash b) cache.hashes = some (-1)) →
      (syncBlocks name blocks cache fin nid).2.1 = [] ∧
      ∀ cb ∈ (syncBlocks name blocks cache fin nid).1.blocks, cb.msgID = -1) := by
  refine ⟨seedCache_fresh, syncStep_seeded, ?_⟩
  intro name fin blocks cache nid hne hall
  obtain ⟨ho, _, hn⟩ := syncAux_all_seeded name fin blocks
    ⟨cache.hashes, cache.blocks, [], nid, []⟩ hall
  constructor
  · simpa [syncBlocks, hne] using ho
  · intro cb hcb
    simp only [syncBlocks, hne] at hcb
    simp at hcb
    rcases hn cb hcb with hmem | hid
    · simp at hmem
    · exact hid

/-- Witness for C3: a single seeded block over an empty initial cache. -/
theorem sync_seeded_c3_witness :
    ("Earlier answer text" ∈ ["Earlier answer text"]) ∧
    lookupHash (blockHash "Earlier answer text") (⟨[], []⟩ : BlockCache).hashes
      = none ∧
    lookupHash (blockHash "Earlier answer text")
      (seedCache ["Earlier answer text"] ⟨[], []⟩).hashes = some (-1) ∧
    (syncBlocks "proj" ["Earlier answer text"]
      (seedCache ["Earlier answer text"] ⟨[], []⟩) true 5).2.1 = [] ∧
    ∀ cb ∈ (syncBlocks "proj" ["Earlier answer text"]
      (seedCache ["Earlier answer text"] ⟨[], []⟩) true 5).1.blocks,
      cb.msgID = -1 :=
  ⟨by decide, by decide,
   sync_seeded_c3.1 ["Earlier answer text"] ⟨[], []⟩ "Earlier answer text"
     (by decide) (by decide),
   (sync_seeded_c3.2.2 "proj" true ["Earlier answer text"]
     (seedCache ["Earlier answer text"] ⟨[], []⟩) 5 (by decide) (by decide)).1,
   (sync_seeded_c3.2.2 "proj" true ["Earlier answer text"]
     (seedCache ["Earlier answer text"] ⟨[], []⟩) 5 (by decide) (by decide)).2⟩

/-- C4 counterexample: on a 34-character block the trimmed text is at most
100 characters long, yet the hash of the source is not the trimmed text:
the code measures and cuts bytes, so it keeps only the first 100 of the
102 UTF-8 bytes, splitting the final rune. -/
theorem blockHash_c4_counterexample :
    (goTrim sC4).data.length ≤ 100 ∧
    blockHash sC4 ≠ strBytes (goTrim sC4) ∧
    blockHash sC4 ≠ blockHashChars sC4 := by decide

/-- C4 (amended): the dedup hash equals the whitespace-trimmed text when the
trimmed text is at most 100 BYTES long and otherwise the first 100 bytes
of it; consequently two blocks whose trimmed texts agree on that 100-byte
cut receive the same hash. -/
theorem blockHash_c4_amended (a b : String) :
    ((strBytes (goTrim a)).length ≤ 100 → blockHash a = strBytes (goTrim a)) ∧
    (100 < (strBytes (goTrim a)).length →
      blockHash a = (strBytes (goTrim a)).take 100) ∧
    ((strBytes (goTrim a)).take 100 = (strBytes (goTrim b)).take 100 →
      blockHash a = blockHash b) := by
  refine ⟨?_, ?_, ?_⟩
  · intro h
    simp [blockHash, Nat.not_lt.mpr h]
  · intro h
    simp [blockHash, h]
  · intro h
    unfold blockHash
    by_cases ha : 100 < (strBytes (goTrim a)).length <;>
      by_cases hb : 100 < (strBytes (goTrim b)).length
    · simp [ha, hb, h]
    · have eb : (strBytes (goTrim b)).take 100 = strBytes (goTrim b) :=
        List.take_of_length_le (Nat.not_lt.mp hb)
      rw [eb] at h
      simp [ha, hb, h]
    · have ea : (strBytes (goTrim a)).take 100 = strBytes (goTrim a) :=
        List.take_of_length_le (Nat.not_lt.mp ha)
      rw [ea] at h
      simp [ha, hb, h]
    · have ea : (strBytes (goTrim a)).take 100 = strBytes (goTrim a) :=
        List.take_of_length_le (Nat.not_lt.mp ha)
      have eb : (strBytes (goTrim b)).take 100 = strBytes (goTrim b) :=
        List.take_of_length_le (Nat.not_lt.mp hb)
      rw [ea, eb] at h
      simp [ha, hb, h]

/-- Witness for the amended C4 theorem: a 101-byte and a 102-byte text that
agree on their first 100 bytes hash identically. -/
theorem blockHash_c4_witness :
    (strBytes (goTrim aC4)).take 100 = (strBytes (goTrim bC4)).take 100 ∧
    blockHash aC4 = blockHash bC4 :=
  ⟨by decide, (blockHash_c4_amended aC4 bC4).2.2 (by decide)⟩

/-- C5: a download request whose User-Agent contains "Telegram" is rejected
with 403 before the transfer table is consulted: the table is returned
unchanged, so in particular a waiting transfer does not transition to
ready and its data and done channel generations stay as they were. -/
theorem relay_c5 (st : RelayState) (method ua path : String)
    (h : strContains ua "Telegram" = true) :
    downloadEntry st method ua path = (DlDecision.forbidden, st) := by
  simp [downloadEntry, h]

/-- Witness for C5: a GET with the Telegram crawler User-Agent against a
waiting transfer. -/
theorem relay_c5_witness :
    strContains "TelegramBot (like TwitterBot)" "Telegram" = true ∧
    downloadEntry
      ⟨[("tok123", ⟨"tok123", "huge.zip", 120, "waiting", 0, 0, 0⟩)]⟩
      "GET" "TelegramBot (like TwitterBot)" "/d/tok123/huge.zip"
      = (DlDecision.forbidden,
         ⟨[("tok123", ⟨"tok123", "huge.zip", 120, "waiting", 0, 0, 0⟩)]⟩) :=
  ⟨by decide, relay_c5 _ "GET" _ _ (by decide)⟩

/-- C6: evaluation at the failing input.  For the session name "my.app" the
canonical id and the restart path produce "claude-my_app", but the
`/new my.app` creation path produces "claude-my.app" with the dot kept, so
the two ids disagree and the claim that every id-forming path replaces
dots fails on the creation path. -/
theorem sessionName_c6_bug :
    sessionName "my.app" = "claude-my_app" ∧
    restartTmuxName "my.app" = "claude-my_app" ∧
    newSessionTmuxName "my.app" = "claude-my.app" ∧
    newSessionTmuxName "my.app" ≠ sessionName "my.app" := by decide

theorem listStarts_iff (p : List Char) :
    ∀ l, listStarts p l = true ↔ ∃ t, l = p ++ t := by
  induction p with
  | nil =>
    intro l
    simp [listStarts]
  | cons a p ih =>
    intro l
    cases l with
    | nil => simp [listStarts]
    | cons b l =>
      simp only [listStarts, Bool.and_eq_true, beq_iff_eq, List.cons_append]
      constructor
      · rintro ⟨hab, hl⟩
        obtain ⟨t, ht⟩ := (ih l).mp hl
        exact ⟨t, by simp [hab, ht]⟩
      · rintro ⟨t, ht⟩
        injection ht with h1 h2
        exact ⟨h1.symm, (ih l).mpr ⟨t, h2⟩⟩

/-- C7 counterexample: the existence check passes the bare name to the
default matcher, so exists "foo" reports true when only the session
"foo.bar" is alive, although "foo" is not the name of any session. -/
theorem tmuxExists_c7_counterexample :
    tmuxSessionExists "foo" ["foo.bar"] = true ∧
    "foo" ∉ (["foo.bar"] : List String) := by decide

/-- C7 (amended): the existence check uses the default matching of the
multiplexer: it reports true exactly when some live session has the
queried id as a name prefix (equality included), not only on exact
matches. -/
theorem tmuxExists_c7_amended (name : String) (sessions : List String) :
    tmuxSessionExists name sessions = true ↔
      ∃ s ∈ sessions, ∃ t, s.data = name.data ++ t := by
  simp only [tmuxSessionExists, List.any_eq_true, tmuxTargetMatches]
  constructor
  · rintro ⟨s, hs, hm⟩
    exact ⟨s, hs, (listStarts_iff _ _).mp hm⟩
  · rintro ⟨s, hs, t, ht⟩
    exact ⟨s, hs, (listStarts_iff _ _).mpr ⟨t, ht⟩⟩

/-- C8: a persisted config whose sessions map binds names to bare positive
integers loads into the record form, with each topic id preserved and the
path inferred by the prefix rules, and the migrated config is written back
to disk at once (the true flag); the trailing conjuncts spell out the
prefix rules of the inferred path. -/
theorem loadConfig_c8 (home : String) (raw : OldConfigDisk)
    (h1 : raw.sessions ≠ []) (h2 : ∀ p ∈ raw.sessions, 0 < p.2) :
    loadConfigOld home raw =
      some ({ botToken := raw.botToken, chatID := raw.chatID,
              groupID := raw.groupID, projectsDir := raw.projectsDir,
              away := raw.away,
              sessions := raw.sessions.map (fun p =>
                (p.1, ⟨p.2, oldSessionPath home raw.projectsDir p.1⟩)) }, true) ∧
    (∀ nm : String, strStarts nm "/" = true →
      oldSessionPath home raw.projectsDir nm = nm) ∧
    (∀ nm : String, strStarts nm "/" = false → strStarts nm "~/" = true →
      oldSessionPath home raw.projectsDir nm = joinGo home ⟨nm.data.drop 2⟩) ∧
    (∀ nm : String, strStarts nm "/" = false → strStarts nm "~/" = false →
      raw.projectsDir = "" →
      oldSessionPath home raw.projectsDir nm = joinGo home nm) ∧
    (∀ nm : String, strStarts nm "/" = false → strStarts nm "~/" = false →
      raw.projectsDir ≠ "" → strStarts raw.projectsDir "~/" = false →
      oldSessionPath home raw.projectsDir nm = joinGo raw.projectsDir nm) := by
  have hne : raw.sessions.isEmpty = false := by
    cases hs : raw.sessions with
    | nil => exact absurd hs h1
    | cons x xs => simp
  have hany : raw.sessions.any (fun p => decide (0 < p.2)) = true := by
    cases hs : raw.sessions with
    | nil => exact absurd hs h1
    | cons x xs =>
      have := h2 x (by rw [hs]; simp)
      simp [this]
  refine ⟨by simp [loadConfigOld, hne, hany], ?_, ?_, ?_, ?_⟩
  · intro nm h
    simp [oldSessionPath, h]
  · intro nm ha hb
    simp [oldSessionPath, ha, hb]
  · intro nm ha hb hc
    simp [oldSessionPath, ha, hb, hc]
  · intro nm ha hb hc hd
    simp [oldSessionPath, ha, hb, hc, hd]

/-- Witness for C8 at the scenario S7 input: the legacy binding foo to 42
loads as topic 42 with path joined to the configured projects directory,
and the save flag is set. -/
theorem loadConfig_c8_witness :
    rawC8.sessions ≠ [] ∧ (∀ p ∈ rawC8.sessions, 0 < p.2) ∧
    loadConfigOld "/home/u" rawC8 =
      some ({ botToken := "", chatID := 0, groupID := 0,
              projectsDir := "~/projects", away := false,
              sessions := [("foo", ⟨42, "/home/u/projects/foo"⟩)] }, true) := by
  refine ⟨by decide, by decide, ?_⟩
  have h := (loadConfig_c8 "/home/u" rawC8 (by decide) (by decide)).1
  rw [h]
  decide

theorem lastIndexByte_spec (c : Nat) :
    ∀ l : List Nat,
    (lastIndexByte c l = -1 ∧ ∀ i, i < l.length → l.getD i 0 ≠ c) ∨
    (∃ i : Nat, lastIndexByte c l = (i : Int) ∧ i < l.length ∧
      l.getD i 0 = c ∧ ∀ j, i < j → j < l.length → l.getD j 0 ≠ c) := by
  intro l
  induction l with
  | nil =>
    left
    refine ⟨rfl, ?_⟩
    intro i hi
    simp at hi
  | cons a t ih =>
    rcases ih with ⟨h1, h2⟩ | ⟨i, h1, h2, h3, h4⟩
    · by_cases ha : a = c
      · right
        refine ⟨0, ?_, by simp, by simpa using ha, ?_⟩
        · simp [lastIndexByte, h1, ha]
        · intro j hj1 hj2
          cases j with
          | zero => omega
          | succ j =>
            simp only [List.getD_cons_succ]
            exact h2 j (by simpa using hj2)
      · left
        refine ⟨by simp [lastIndexByte, h1, ha], ?_⟩
        intro i hi
        cases i with
        | zero => simpa using ha
        | succ i =>
          simp only [List.getD_cons_succ]
          exact h2 i (by simpa using hi)
    · right
      refine ⟨i + 1, ?_, by simpa using h2, by simpa using h3, ?_⟩
      · have hr : (0 : Int) ≤ lastIndexByte c t := by rw [h1]; omega
        simp [lastIndexByte, hr, h1]
        try omega
      · intro j hj1 hj2
        cases j with
        | zero => omega
        | succ j =>
          simp only [List.getD_cons_succ]
          exact h4 j (by omega) (by simpa using hj2)

theorem lastIndexByte_lt_length (c : Nat) :
    ∀ l : List Nat, lastIndexByte c l < (l.length : Int) := by
  intro l
  induction l with
  | nil => simp [lastIndexByte]
  | cons a t ih =>
    simp only [lastIndexByte, List.length_cons]
    split_ifs <;> push_cast <;> omega

theorem goSplitAt_pos (text : List Nat) (maxLen : Nat) (hm : 1 ≤ maxLen) :
    1 ≤ goSplitAt text maxLen := by
  unfold goSplitAt
  split_ifs <;> omega

theorem goSplitAt_le (text : List Nat) (h : 4000 < text.length) :
    goSplitAt text 4000 ≤ 4000 := by
  have hw : (text.take 4000).length = 4000 := by
    simp [List.length_take]
    omega
  have h1 := lastIndexByte_lt_length 10 (text.take 4000)
  have h2 := lastIndexByte_lt_length 32 (text.take 4000)
  rw [hw] at h1 h2
  unfold goSplitAt
  split_ifs <;> omega

theorem goSplitAt_rule (text : List Nat) :
    splitAtRule text (goSplitAt text 4000) := by
  unfold splitAtRule goSplitAt
  rcases lastIndexByte_spec 10 (text.take 4000) with ⟨n1, n2⟩ | ⟨i, n1, n2, n3, n4⟩
  · rw [n1]
    have hc1 : ¬ (((4000 / 2 : Nat) : Int) < (-1 : Int)) := by omega
    rw [if_neg hc1]
    have hno10 : ∀ i, 2000 < i → i < (text.take 4000).length →
        (text.take 4000).getD i 0 ≠ 10 := fun i _ hi => n2 i hi
    rcases lastIndexByte_spec 32 (text.take 4000) with ⟨m1, m2⟩ | ⟨i, m1, m2, m3, m4⟩
    · rw [m1]
      have hc2 : ¬ (((4000 / 2 : Nat) : Int) < (-1 : Int)) := by omega
      rw [if_neg hc2]
      exact Or.inr (Or.inr ⟨hno10, fun i _ hi => m2 i hi, rfl⟩)
    · rw [m1]
      by_cases hhalf : 2000 < i
      · have hc2 : ((4000 / 2 : Nat) : Int) < (i : Int) := by push_cast; omega
        rw [if_pos hc2]
        refine Or.inr (Or.inl ⟨hno10, i, m2, m3, hhalf, m4, by simp⟩)
      · have hc2 : ¬ (((4000 / 2 : Nat) : Int) < (i : Int)) := by push_cast; omega
        rw [if_neg hc2]
        refine Or.inr (Or.inr ⟨hno10, ?_, rfl⟩)
        intro j hj1 hj2
        exact m4 j (by omega) hj2
  · rw [n1]
    by_cases hhalf : 2000 < i
    · have hc1 : ((4000 / 2 : Nat) : Int) < (i : Int) := by push_cast; omega
      rw [if_pos hc1]
      exact Or.inl ⟨i, n2, n3, hhalf, n4, by simp⟩
    · have hc1 : ¬ (((4000 / 2 : Nat) : Int) < (i : Int)) := by push_cast; omega
      rw [if_neg hc1]
      have hno10 : ∀ j, 2000 < j → j < (text.take 4000).length →
          (text.take 4000).getD j 0 ≠ 10 := by
        intro j hj1 hj2
        exact n4 j (by omega) hj2
      rcases lastIndexByte_spec 32 (text.take 4000) with ⟨m1, m2⟩ | ⟨k, m1, m2, m3, m4⟩
      · rw [m1]
        have hc2 : ¬ (((4000 / 2 : Nat) : Int) < (-1 : Int)) := by omega
        rw [if_neg hc2]
        exact Or.inr (Or.inr ⟨hno10, fun j _ hj => m2 j hj, rfl⟩)
      · rw [m1]
        by_cases hhalf2 : 2000 < k
        · have hc2 : ((4000 / 2 : Nat) : Int) < (k : Int) := by push_cast; omega
          rw [if_pos hc2]
          refine Or.inr (Or.inl ⟨hno10, k, m2, m3, hhalf2, m4, by simp⟩)
        · have hc2 : ¬ (((4000 / 2 : Nat) : Int) < (k : Int)) := by push_cast; omega
          rw [if_neg hc2]
          refine Or.inr (Or.inr ⟨hno10, ?_, rfl⟩)
          intro j hj1 hj2
          exact m4 j (by omega) hj2

theorem dropWhile_len_le (p : Nat → Bool) :
    ∀ l : List Nat, (l.dropWhile p).length ≤ l.length := by
  intro l
  induction l with
  | nil => simp
  | cons a t ih =>
    by_cases h : p a
    · simp [List.dropWhile_cons, h]
      omega
    · simp [List.dropWhile_cons, h]

theorem trimRight_length_le (l : List Nat) :
    (trimRightSpaceNL l).length ≤ l.length := by
  have h := dropWhile_len_le (fun b => b == 32 || b == 10) l.reverse
  simpa [trimRightSpaceNL] using h

theorem splitMsgAux_fuel :
    ∀ (n : Nat) (r : List Nat), r.length ≤ n →
    ∀ f1 f2, r.length < f1 → r.length < f2 →
    splitMsgAux 4000 f1 r = splitMsgAux 4000 f2 r := by
  intro n
  induction n with
  | zero =>
    intro r hr f1 f2 h1 h2
    have he : r = [] := List.length_eq_zero.mp (by omega)
    subst he
    cases f1 with
    | zero => omega
    | succ g1 =>
      cases f2 with
      | zero => omega
      | succ g2 => simp [splitMsgAux]
  | succ n ih =>
    intro r hr f1 f2 h1 h2
    cases f1 with
    | zero => omega
    | succ g1 =>
      cases f2 with
      | zero => omega
      | succ g2 =>
        by_cases he : r.isEmpty
        · simp [splitMsgAux, he]
        · by_cases hle : r.length ≤ 4000
          · simp [splitMsgAux, he, hle]
          · have hs1 : 1 ≤ goSplitAt r 4000 := goSplitAt_pos r 4000 (by omega)
            have hrne : r.length ≠ 0 := by
              cases r with
              | nil => simp at he
              | cons x xs => simp
            have hdrop : (r.drop (goSplitAt r 4000)).length < r.length := by
              simp only [List.length_drop]
              omega
            simp only [splitMsgAux, he, hle, if_false, Bool.false_eq_true,
              ite_false]
            rw [ih (r.drop (goSplitAt r 4000)) (by omega) g1 g2 (by omega)
              (by omega)]

theorem splitMsgAux_eq_splitMessage (r : List Nat) (f : Nat)
    (hf : r.length < f) (hne : r.isEmpty = false) :
    splitMsgAux 4000 f r = splitMessage r 4000 := by
  unfold splitMessage
  by_cases hle : r.length ≤ 4000
  · cases f with
    | zero => omega
    | succ g => simp [splitMsgAux, hne, hle]
  · rw [if_neg hle]
    exact splitMsgAux_fuel r.length r (le_refl _) f (r.length + 1) hf (by omega)

theorem splitMessage_step (text : List Nat) (h : 4000 < text.length) :
    splitMessage text 4000 =
      trimRightSpaceNL (text.take (goSplitAt text 4000)) ::
        splitMessage (text.drop (goSplitAt text 4000)) 4000 := by
  have hne : text.isEmpty = false := by
    cases text with
    | nil => simp at h
    | cons x xs => simp
  have hnle : ¬ text.length ≤ 4000 := by omega
  have hs1 : 1 ≤ goSplitAt text 4000 := goSplitAt_pos text 4000 (by omega)
  have hsle : goSplitAt text 4000 ≤ 4000 := goSplitAt_le text h
  have hdropne : (text.drop (goSplitAt text 4000)).isEmpty = false := by
    have : (text.drop (goSplitAt text 4000)).length ≠ 0 := by
      simp only [List.length_drop]
      omega
    cases hd : text.drop (goSplitAt text 4000) with
    | nil => rw [hd] at this; simp at this
    | cons x xs => simp
  have hdroplt : (text.drop (goSplitAt text 4000)).length < text.length := by
    simp only [List.length_drop]
    omega
  have hL : splitMessage text 4000
      = trimRightSpaceNL (text.take (goSplitAt text 4000)) ::
          splitMsgAux 4000 text.length (text.drop (goSplitAt text 4000)) := by
    unfold splitMessage
    rw [if_neg hnle]
    simp [splitMsgAux, hne, hnle]
  rw [hL, splitMsgAux_eq_splitMessage (text.drop (goSplitAt text 4000))
    text.length hdroplt hdropne]

theorem splitMsgAux_bound :
    ∀ (fuel : Nat) (r : List Nat), ∀ p ∈ splitMsgAux 4000 fuel r,
    p.length ≤ 4000 := by
  intro fuel
  induction fuel with
  | zero =>
    intro r p hp
    simp [splitMsgAux] at hp
  | succ g ih =>
    intro r p hp
    by_cases he : r.isEmpty
    · simp [splitMsgAux, he] at hp
    · by_cases hle : r.length ≤ 4000
      · simp [splitMsgAux, he, hle] at hp
        subst hp
        exact hle
      · simp only [splitMsgAux, he, hle, if_false, Bool.false_eq_true,
          ite_false, List.mem_cons] at hp
        rcases hp with hp | hp
        · subst hp
          have h1 := trimRight_length_le (r.take (goSplitAt r 4000))
          have h2 : (r.take (goSplitAt r 4000)).length ≤ goSplitAt r 4000 := by
            simp [List.length_take]
          have h3 : goSplitAt r 4000 ≤ 4000 := goSplitAt_le r (by omega)
          omega
        · exact ih _ p hp

/-- C9: every part of the 4000-byte splitter is at most 4000 bytes long;
whenever the remaining text exceeds 4000 bytes, the emitted part is the
text up to the split point with trailing spaces and newlines trimmed, the
rest is split recursively, and the split point obeys the rule of the
specification: just after the last newline of the first 4000 bytes when it
lies strictly beyond byte 2000, else just after the last such space, else
exactly at byte 4000. -/
theorem splitMessage_c9 (text : List Nat) :
    (∀ p ∈ splitMessage text 4000, p.length ≤ 4000) ∧
    (4000 < text.length →
      splitMessage text 4000 =
        trimRightSpaceNL (text.take (goSplitAt text 4000)) ::
          splitMessage (text.drop (goSplitAt text 4000)) 4000 ∧
      splitAtRule text (goSplitAt text 4000)) := by
  constructor
  · intro p hp
    unfold splitMessage at hp
    by_cases hle : text.length ≤ 4000
    · simp [hle] at hp
      subst hp
      exact hle
    · rw [if_neg hle] at hp
      exact splitMsgAux_bound _ _ p hp
  · intro h
    exact ⟨splitMessage_step text h, goSplitAt_rule text⟩

/-- Witness for C9 on a 4001-byte input. -/
theorem splitMessage_c9_witness :
    4000 < wC9.length ∧
    (∀ p ∈ splitMessage wC9 4000, p.length ≤ 4000) ∧
    splitMessage wC9 4000 =
      trimRightSpaceNL (wC9.take (goSplitAt wC9 4000)) ::
        splitMessage (wC9.drop (goSplitAt wC9 4000)) 4000 ∧
    splitAtRule wC9 (goSplitAt wC9 4000) := by
  have hlen : 4000 < wC9.length := by
    unfold wC9
    rw [List.length_replicate]
    omega
  exact ⟨hlen, (splitMessage_c9 wC9).1, (splitMessage_c9 wC9).2 hlen⟩

/-- C10: loading the on-disk block cache is total and degrades to the empty
cache: a read failure or malformed JSON yields a cache with no blocks and
no hash map, in which every hash lookup misses, so all pane blocks count
as unsent instead of the mirror crashing. -/
theorem loadBlockCache_c10 (readData : Option String)
    (unmarshal : String → Option BlockCache)
    (h : readData = none ∨ ∃ d, readData = some d ∧ unmarshal d = none) :
    loadBlockCacheModel readData unmarshal = ⟨[], []⟩ ∧
    (loadBlockCacheModel readData unmarshal).blocks = [] ∧
    ∀ k, lookupHash k (loadBlockCacheModel readData unmarshal).hashes = none := by
  rcases h with h | ⟨d, hd, hu⟩
  · subst h
    exact ⟨rfl, rfl, fun k => rfl⟩
  · subst hd
    refine ⟨by simp [loadBlockCacheModel, hu], by simp [loadBlockCacheModel, hu], ?_⟩
    intro k
    simp [loadBlockCacheModel, hu, lookupHash]

/-- Witness for C10: the unreadable-file case. -/
theorem loadBlockCache_c10_witness :
    ((none : Option String) = none ∨ ∃ d, (none : Option String) = some d ∧
      (fun (_ : String) => (none : Option BlockCache)) d = none) ∧
    loadBlockCacheModel none (fun _ => none) = ⟨[], []⟩ :=
  ⟨Or.inl rfl,
   (loadBlockCache_c10 none (fun _ => none) (Or.inl rfl)).1⟩

end Ccc
